import Mathlib

/-!
Verification of the PCM container encoder (`encodeWAV` in
`static/js/recorder.js`) of the zenzone repository.

Embedding choices:
* A byte sequence is a `List ℕ` whose entries are < 256 byte values.
* Floating-point samples are embedded as rationals `ℚ`.  The encoder's
  arithmetic on a clamped sample (`s * 0x8000`, `s * 0x7fff` in IEEE double
  on a float32 sample) is exact, and `DataView.setInt16` truncates toward
  zero and wraps modulo 2^16, so the rational model is faithful on the
  representable inputs.
* `audioBuffer.getChannelData(i)` throws for `i ≥ numberOfChannels`, so the
  embedding of the encoder returns an `Option`: `none` models the thrown
  exception (reachable only for a zero-channel buffer).
-/

namespace ZenZone

/-- ASCII bytes of the string literal `RIFF` (`writeString(view, 0, 'RIFF')`). -/
def riffBytes : List ℕ := [82, 73, 70, 70]

/-- ASCII bytes of the string literal `WAVE`. -/
def waveBytes : List ℕ := [87, 65, 86, 69]

/-- ASCII bytes of the string literal `fmt ` (with trailing space). -/
def fmtBytes : List ℕ := [102, 109, 116, 32]

/-- ASCII bytes of the string literal `data`. -/
def dataBytes : List ℕ := [100, 97, 116, 97]

/-- `view.setUint16(off, n, true)`: the two bytes written, little-endian,
after the ToUint16 wrap modulo 2^16. -/
def u16le (n : ℕ) : List ℕ :=
  [n % 65536 % 256, n % 65536 / 256]

/-- `view.setUint32(off, n, true)`: the four bytes written, little-endian,
after the ToUint32 wrap modulo 2^32. -/
def u32le (n : ℕ) : List ℕ :=
  [n % 4294967296 % 256, n % 4294967296 / 256 % 256,
   n % 4294967296 / 65536 % 256, n % 4294967296 / 16777216 % 256]

/-- Truncation toward zero of a rational, the conversion a JS `DataView`
applies to a number before wrapping (floor for non-negative, ceil for
negative values). -/
def truncTowardZero (q : ℚ) : ℤ :=
  if 0 ≤ q then ⌊q⌋ else ⌈q⌉

/-- Wrap an integer into the signed 16-bit range, as `setInt16` does
(reduce modulo 2^16, reinterpret as two's complement). -/
def wrap16 (n : ℤ) : ℤ :=
  if n % 65536 < 32768 then n % 65536 else n % 65536 - 65536

/-- `Math.max(-1, Math.min(1, x))`: clamp a sample to [-1, 1]. -/
def clamp (x : ℚ) : ℚ := max (-1) (min 1 x)

/-- The signed 16-bit value the encoder stores for one input sample:
`let s = Math.max(-1, Math.min(1, interleaved[i]));
 view.setInt16(offset, s < 0 ? s * 0x8000 : s * 0x7fff, true)`. -/
def quantizeSample (x : ℚ) : ℤ :=
  wrap16 (truncTowardZero (if clamp x < 0 then clamp x * 32768 else clamp x * 32767))

/-- The two bytes `setInt16(_, n, true)` writes, little-endian: the low and
high byte of the two's-complement 16-bit representation. -/
def s16le (n : ℤ) : List ℕ :=
  [(n % 65536).toNat % 256, (n % 65536).toNat / 256]

/-- The payload bytes: each interleaved sample quantized and written as two
little-endian bytes, in order (the `for` loop at offset 44). -/
def pcmBytes (xs : List ℚ) : List ℕ :=
  xs.flatMap (fun x => s16le (quantizeSample x))

/-- The 44 header bytes written by `encodeWAV`, field by field in source
order (offsets 0, 4, 8, 12, 16, 20, 22, 24, 28, 32, 34, 36, 40). -/
def wavHeader (sampleRate numChannels interleavedLen : ℕ) : List ℕ :=
  riffBytes ++
  u32le (36 + interleavedLen * 2) ++
  waveBytes ++
  fmtBytes ++
  u32le 16 ++
  u16le 1 ++
  u16le numChannels ++
  u32le sampleRate ++
  u32le (sampleRate * numChannels * 2) ++
  u16le (numChannels * 2) ++
  u16le 16 ++
  dataBytes ++
  u32le (interleavedLen * 2)

/-- The interleaving loop for the stereo branch:
`for i < ch0.length { out[idx++] = ch0[i]; out[idx++] = ch1[i] }`.
Modelled on the equal-length invariant domain of `DecodedAudio` (a read past
a channel's end would produce NaN, which no well-formed decoded buffer
triggers: all channels of an `AudioBuffer` have identical length). -/
def interleave : List ℚ → List ℚ → List ℚ
  | x :: xs, y :: ys => x :: y :: interleave xs ys
  | _, _ => []

/-- The decoded-audio value (`AudioBuffer`) consumed by `encodeWAV`:
sample rate, frame count (`audioBuffer.length`), and the per-channel
sample buffers (`audioBuffer.getChannelData(i)`). -/
structure DecodedAudio where
  sampleRate : ℕ
  frameCount : ℕ
  channels : List (List ℚ)

/-- `audioBuffer.numberOfChannels`. -/
def DecodedAudio.channelCount (a : DecodedAudio) : ℕ := a.channels.length

/-- `audioBuffer.getChannelData(i)`: `none` models the IndexSizeError thrown
for an out-of-range channel index. -/
def getChannelData (a : DecodedAudio) (i : ℕ) : Option (List ℚ) :=
  a.channels.get? i

/-- The data-model invariant of §3 of the spec: at least one channel and
every channel buffer of length `frameCount`. -/
def DecodedAudio.Valid (a : DecodedAudio) : Prop :=
  1 ≤ a.channels.length ∧ ∀ ch ∈ a.channels, ch.length = a.frameCount

instance (a : DecodedAudio) : Decidable a.Valid := by
  unfold DecodedAudio.Valid; infer_instance

/-- The flat pre-quantization sequence `interleaved` built by `encodeWAV`:
the stereo branch interleaves channels 0 and 1; otherwise
`audioBuffer.getChannelData(0).slice(0)` (a copy of channel 0; lists are
values, so the copy is the list itself). -/
def interleavedOf (a : DecodedAudio) : Option (List ℚ) :=
  if min 2 a.channelCount = 2 then
    match getChannelData a 0, getChannelData a 1 with
    | some ch0, some ch1 => some (interleave ch0 ch1)
    | _, _ => none
  else
    getChannelData a 0

/-- `encodeWAV(audioBuffer)`: the byte sequence of the returned Blob, or
`none` when `getChannelData` throws (zero-channel input). -/
def encodeWAV (a : DecodedAudio) : Option (List ℕ) :=
  (interleavedOf a).map (fun interleaved =>
    wavHeader a.sampleRate (min 2 a.channelCount) interleaved.length ++
      pcmBytes interleaved)

/-! Byte-sequence readers used to state header properties and to give the
reference WAVE parser for the round-trip claim. -/

/-- Read one byte (0 past the end). -/
def readByte (bs : List ℕ) (i : ℕ) : ℕ := bs.getD i 0

/-- Read a little-endian unsigned 16-bit field. -/
def readU16 (bs : List ℕ) (off : ℕ) : ℕ :=
  readByte bs off + 256 * readByte bs (off + 1)

/-- Read a little-endian unsigned 32-bit field. -/
def readU32 (bs : List ℕ) (off : ℕ) : ℕ :=
  readU16 bs off + 65536 * readU16 bs (off + 2)

/-- Reinterpret an unsigned 16-bit value as two's-complement signed. -/
def toSigned16 (n : ℕ) : ℤ :=
  if n < 32768 then (n : ℤ) else (n : ℤ) - 65536

/-- Read a little-endian signed 16-bit field. -/
def readS16 (bs : List ℕ) (off : ℕ) : ℤ := toSigned16 (readU16 bs off)

/-! The reference decoder (a standard WAVE parser specialised to the fixed
44-byte canonical header layout): channel count at offset 22, sample rate
at offset 24, data chunk length at offset 40, 16-bit little-endian PCM
samples from offset 44 on, each mapped back to [-1, 1) by division by
2^15. -/

/-- Channel count a standard WAVE parser reads from the output. -/
def decodedChannelCount (bs : List ℕ) : ℕ := readU16 bs 22

/-- Sample rate a standard WAVE parser reads from the output. -/
def decodedSampleRate (bs : List ℕ) : ℕ := readU32 bs 24

/-- Data chunk byte length a standard WAVE parser reads from the output. -/
def decodedDataLen (bs : List ℕ) : ℕ := readU32 bs 40

/-- Frame count a standard WAVE parser derives: data length over block
alignment (channel count times two bytes per sample). -/
def decodedFrameCount (bs : List ℕ) : ℕ :=
  decodedDataLen bs / (decodedChannelCount bs * 2)

/-- The j-th payload sample as a standard WAVE parser decodes it: the
signed 16-bit little-endian value at byte offset 44 + 2j, scaled by 1/2^15. -/
def decodedSample (bs : List ℕ) (j : ℕ) : ℚ :=
  (readS16 bs (44 + 2 * j) : ℚ) / 32768

/-- The quantization map as the spec's §4.1 step 3 words it: clamp to
[-1, 1], then scale negative-or-zero values by 32768 and positive values by
32767, truncating toward zero.  Stated separately from `quantizeSample`
(which follows the source's `s < 0` test) so the two can be compared. -/
def specQuantize (x : ℚ) : ℤ :=
  truncTowardZero (if clamp x ≤ 0 then clamp x * 32768 else clamp x * 32767)

example : encodeWAV ⟨8000, 0, []⟩ = none := rfl

example : interleave [0, 1/2] [-1/2, 1] = [0, -1/2, 1/2, 1] := rfl

example : quantizeSample (3/2) = 32767 := by
  norm_num [quantizeSample, clamp, truncTowardZero, wrap16, Int.ceil_neg]

example : quantizeSample (-3/2) = -32768 := by
  norm_num [quantizeSample, clamp, truncTowardZero, wrap16, Int.ceil_neg]

example : quantizeSample (1/2) = 16383 := by
  norm_num [quantizeSample, clamp, truncTowardZero, wrap16, Int.ceil_neg]

/-! ### Basic structural lemmas -/

lemma wavHeader_length (sr ch n : ℕ) : (wavHeader sr ch n).length = 44 := by
  simp [wavHeader, u16le, u32le, riffBytes, waveBytes, fmtBytes, dataBytes]

lemma s16le_length (n : ℤ) : (s16le n).length = 2 := rfl

lemma pcmBytes_length (xs : List ℚ) : (pcmBytes xs).length = 2 * xs.length := by
  induction xs with
  | nil => rfl
  | cons x xs ih =>
      simp only [pcmBytes, List.flatMap_cons, List.length_append,
        List.length_cons] at ih ⊢
      rw [s16le_length]
      omega

lemma interleave_length :
    ∀ xs ys : List ℚ, xs.length = ys.length →
      (interleave xs ys).length = 2 * xs.length
  | [], [], _ => rfl
  | [], _ :: _, h => by simp at h
  | _ :: _, [], h => by simp at h
  | x :: xs, y :: ys, h => by
      have h' : xs.length = ys.length := by simpa using h
      simp [interleave, interleave_length xs ys h']
      omega

/-! ### Reading fields back

`readU16`/`readU32` recombine the bytes a `u16le`/`u32le` field holds; the
header's field windows are extracted with `drop`/`take` (cheap to evaluate)
and recombined below. -/

lemma readU16_of_take (bs : List ℕ) (off a b : ℕ)
    (h : (bs.drop off).take 2 = [a, b]) : readU16 bs off = a + 256 * b := by
  have h0 : bs[off]? = some a := by
    have h' := congrArg (fun l => l[0]?) h
    simpa [List.getElem?_take, List.getElem?_drop] using h'
  have h1 : bs[off + 1]? = some b := by
    have h' := congrArg (fun l => l[1]?) h
    simpa [List.getElem?_take, List.getElem?_drop] using h'
  simp [readU16, readByte, List.getD_eq_getElem?_getD, h0, h1]

lemma readU32_of_take (bs : List ℕ) (off a b c d : ℕ)
    (h : (bs.drop off).take 4 = [a, b, c, d]) :
    readU32 bs off = a + 256 * b + 65536 * (c + 256 * d) := by
  have h2 : (bs.drop (off + 2)).take 2 = [c, d] := by
    have h' := congrArg (fun l => (l.drop 2).take 2) h
    simpa [List.drop_take, List.drop_drop, List.take_take, Nat.add_comm] using h'
  have h0 : (bs.drop off).take 2 = [a, b] := by
    have h' := congrArg (fun l => l.take 2) h
    simpa [List.take_take] using h'
  rw [readU32, readU16_of_take bs off a b h0, readU16_of_take bs (off + 2) c d h2]

lemma readU16_u16le (bs : List ℕ) (off x : ℕ)
    (h : (bs.drop off).take 2 = u16le x) : readU16 bs off = x % 65536 := by
  have h' := readU16_of_take bs off (x % 65536 % 256) (x % 65536 / 256) h
  omega

lemma readU32_u32le (bs : List ℕ) (off x : ℕ)
    (h : (bs.drop off).take 4 = u32le x) : readU32 bs off = x % 4294967296 := by
  have h' := readU32_of_take bs off (x % 4294967296 % 256)
    (x % 4294967296 / 256 % 256) (x % 4294967296 / 65536 % 256)
    (x % 4294967296 / 16777216 % 256) h
  omega

/-! ### Header field lemmas

Each field window of `wavHeader` is evaluated by `rfl` and recombined. -/

lemma wavHeader_take4 (sr ch n : ℕ) : (wavHeader sr ch n).take 4 = riffBytes := rfl

lemma wavHeader_wave (sr ch n : ℕ) :
    ((wavHeader sr ch n).drop 8).take 4 = waveBytes := rfl

lemma wavHeader_fmt (sr ch n : ℕ) :
    ((wavHeader sr ch n).drop 12).take 4 = fmtBytes := rfl

lemma wavHeader_data (sr ch n : ℕ) :
    ((wavHeader sr ch n).drop 36).take 4 = dataBytes := rfl

lemma wavHeader_riffSize (sr ch n : ℕ) :
    readU32 (wavHeader sr ch n) 4 = (36 + n * 2) % 4294967296 :=
  readU32_u32le _ 4 (36 + n * 2) rfl

lemma wavHeader_fmtLen (sr ch n : ℕ) : readU32 (wavHeader sr ch n) 16 = 16 :=
  readU32_u32le _ 16 16 rfl

lemma wavHeader_formatTag (sr ch n : ℕ) : readU16 (wavHeader sr ch n) 20 = 1 :=
  readU16_u16le _ 20 1 rfl

lemma wavHeader_channels (sr ch n : ℕ) :
    readU16 (wavHeader sr ch n) 22 = ch % 65536 :=
  readU16_u16le _ 22 ch rfl

lemma wavHeader_sampleRate (sr ch n : ℕ) :
    readU32 (wavHeader sr ch n) 24 = sr % 4294967296 :=
  readU32_u32le _ 24 sr rfl

lemma wavHeader_byteRate (sr ch n : ℕ) :
    readU32 (wavHeader sr ch n) 28 = sr * ch * 2 % 4294967296 :=
  readU32_u32le _ 28 (sr * ch * 2) rfl

lemma wavHeader_blockAlign (sr ch n : ℕ) :
    readU16 (wavHeader sr ch n) 32 = ch * 2 % 65536 :=
  readU16_u16le _ 32 (ch * 2) rfl

lemma wavHeader_bitsPerSample (sr ch n : ℕ) :
    readU16 (wavHeader sr ch n) 34 = 16 :=
  readU16_u16le _ 34 16 rfl

lemma wavHeader_dataLen (sr ch n : ℕ) :
    readU32 (wavHeader sr ch n) 40 = n * 2 % 4294967296 :=
  readU32_u32le _ 40 (n * 2) rfl

/-! Field windows of the header, for reuse on the full output. -/

lemma wavHeader_win4 (sr ch n : ℕ) :
    ((wavHeader sr ch n).drop 4).take 4 = u32le (36 + n * 2) := rfl

lemma wavHeader_win16 (sr ch n : ℕ) :
    ((wavHeader sr ch n).drop 16).take 4 = u32le 16 := rfl

lemma wavHeader_win20 (sr ch n : ℕ) :
    ((wavHeader sr ch n).drop 20).take 2 = u16le 1 := rfl

lemma wavHeader_win22 (sr ch n : ℕ) :
    ((wavHeader sr ch n).drop 22).take 2 = u16le ch := rfl

lemma wavHeader_win24 (sr ch n : ℕ) :
    ((wavHeader sr ch n).drop 24).take 4 = u32le sr := rfl

lemma wavHeader_win28 (sr ch n : ℕ) :
    ((wavHeader sr ch n).drop 28).take 4 = u32le (sr * ch * 2) := rfl

lemma wavHeader_win32 (sr ch n : ℕ) :
    ((wavHeader sr ch n).drop 32).take 2 = u16le (ch * 2) := rfl

lemma wavHeader_win34 (sr ch n : ℕ) :
    ((wavHeader sr ch n).drop 34).take 2 = u16le 16 := rfl

lemma wavHeader_win40 (sr ch n : ℕ) :
    ((wavHeader sr ch n).drop 40).take 4 = u32le (n * 2) := rfl

/-- A `drop`/`take` window that lies inside the left part of an append
only sees the left part. -/
lemma take_drop_append (l₁ l₂ : List ℕ) (off k : ℕ) (h : off + k ≤ l₁.length) :
    ((l₁ ++ l₂).drop off).take k = (l₁.drop off).take k := by
  rw [List.drop_append_eq_append_drop, List.take_append_eq_append_take]
  have h1 : off - l₁.length = 0 := by omega
  have h2 : k - (l₁.drop off).length = 0 := by
    rw [List.length_drop]; omega
  rw [h1, h2, List.drop_zero, List.take_zero, List.append_nil]

/-! ### Structure of the encoder output -/

lemma interleavedOf_one (a : DecodedAudio) (h : a.channels.length ≤ 1) :
    interleavedOf a = a.channels.get? 0 := by
  have hne : min 2 a.channelCount ≠ 2 := by
    simp [DecodedAudio.channelCount]; omega
  simp [interleavedOf, hne, getChannelData]

lemma interleavedOf_two (a : DecodedAudio) (ch0 ch1 : List ℚ)
    (h : 2 ≤ a.channels.length)
    (h0 : a.channels.get? 0 = some ch0) (h1 : a.channels.get? 1 = some ch1) :
    interleavedOf a = some (interleave ch0 ch1) := by
  have hm : min 2 a.channelCount = 2 := by
    simp [DecodedAudio.channelCount]; omega
  rw [List.get?_eq_getElem?] at h0 h1
  simp [interleavedOf, hm, getChannelData, List.get?_eq_getElem?, h0, h1]

lemma encodeWAV_of_interleaved (a : DecodedAudio) (il : List ℚ)
    (h : interleavedOf a = some il) :
    encodeWAV a = some (wavHeader a.sampleRate (min 2 a.channelCount) il.length ++
      pcmBytes il) := by
  simp [encodeWAV, h]

lemma encodeWAV_elim (a : DecodedAudio) (out : List ℕ)
    (h : encodeWAV a = some out) :
    ∃ il, interleavedOf a = some il ∧
      out = wavHeader a.sampleRate (min 2 a.channelCount) il.length ++
        pcmBytes il := by
  cases hi : interleavedOf a with
  | none => rw [encodeWAV, hi] at h; simp at h
  | some il =>
      rw [encodeWAV, hi] at h
      exact ⟨il, rfl, (Option.some.inj h).symm⟩

lemma interleavedOf_valid (a : DecodedAudio) (hv : a.Valid) :
    ∃ il, interleavedOf a = some il ∧
      il.length = a.frameCount * min 2 a.channelCount := by
  obtain ⟨hpos, hch⟩ := hv
  match hc : a.channels with
  | [] => rw [hc] at hpos; simp at hpos
  | [c0] =>
      refine ⟨c0, ?_, ?_⟩
      · rw [interleavedOf_one a (by simp [hc]), hc]; rfl
      · have hlen : c0.length = a.frameCount := hch c0 (by rw [hc]; simp)
        have hcc : a.channelCount = 1 := by
          simp [DecodedAudio.channelCount, hc]
        rw [hlen, hcc]
        simp
  | c0 :: c1 :: rest =>
      have h0 : a.channels.get? 0 = some c0 := by rw [hc]; rfl
      have h1 : a.channels.get? 1 = some c1 := by rw [hc]; rfl
      have hlen2 : 2 ≤ a.channels.length := by
        rw [hc]; simp only [List.length_cons]; omega
      refine ⟨interleave c0 c1, interleavedOf_two a c0 c1 hlen2 h0 h1, ?_⟩
      have hc0 : c0.length = a.frameCount := hch c0 (by rw [hc]; simp)
      have hc1 : c1.length = a.frameCount := hch c1 (by rw [hc]; simp)
      have hm : min 2 a.channelCount = 2 := by
        simp [DecodedAudio.channelCount, hc]
      rw [interleave_length c0 c1 (by rw [hc0, hc1]), hc0, hm]
      omega

lemma encodeWAV_length (a : DecodedAudio) (il : List ℚ)
    (h : interleavedOf a = some il) (out : List ℕ)
    (hout : encodeWAV a = some out) : out.length = 44 + 2 * il.length := by
  rw [encodeWAV_of_interleaved a il h] at hout
  simp only [Option.some.injEq] at hout
  rw [← hout, List.length_append, wavHeader_length, pcmBytes_length]

/-! ### Quantization lemmas -/

lemma clamp_ge (x : ℚ) : -1 ≤ clamp x := le_max_left _ _

lemma clamp_le (x : ℚ) : clamp x ≤ 1 :=
  max_le (by norm_num) (min_le_left _ _)

lemma clamp_mono {x y : ℚ} (h : x ≤ y) : clamp x ≤ clamp y :=
  max_le_max le_rfl (min_le_min le_rfl h)

lemma clamp_of_mem {x : ℚ} (h1 : -1 ≤ x) (h2 : x ≤ 1) : clamp x = x := by
  rw [clamp, min_eq_right h2, max_eq_right h1]

lemma truncTowardZero_mono {p q : ℚ} (h : p ≤ q) :
    truncTowardZero p ≤ truncTowardZero q := by
  unfold truncTowardZero
  rcases le_or_lt 0 p with hp | hp
  · rw [if_pos hp, if_pos (le_trans hp h)]
    exact Int.floor_mono h
  · rw [if_neg (not_le.mpr hp)]
    rcases le_or_lt 0 q with hq | hq
    · rw [if_pos hq]
      calc ⌈p⌉ ≤ 0 := Int.ceil_le.mpr (by exact_mod_cast hp.le)
        _ ≤ ⌊q⌋ := Int.le_floor.mpr (by exact_mod_cast hq)
    · rw [if_neg (not_le.mpr hq)]
      exact Int.ceil_mono h

lemma truncTowardZero_intCast (z : ℤ) : truncTowardZero (z : ℚ) = z := by
  unfold truncTowardZero
  split
  · exact Int.floor_intCast z
  · exact Int.ceil_intCast z

/-- The scaled value the source computes before `setInt16`, prior to
wrapping. -/
lemma rawQuant_bounds (x : ℚ) :
    -32768 ≤ truncTowardZero
        (if clamp x < 0 then clamp x * 32768 else clamp x * 32767) ∧
      truncTowardZero
        (if clamp x < 0 then clamp x * 32768 else clamp x * 32767) ≤ 32767 := by
  have hl := clamp_ge x
  have hr := clamp_le x
  rcases lt_or_ge (clamp x) 0 with hneg | hpos
  · rw [if_pos hneg]
    have hq : clamp x * 32768 < 0 := mul_neg_of_neg_of_pos hneg (by norm_num)
    rw [truncTowardZero, if_neg (not_le.mpr hq)]
    constructor
    · refine Int.le_ceil_iff.mpr ?_
      push_cast
      nlinarith
    · calc ⌈clamp x * 32768⌉ ≤ 0 := Int.ceil_le.mpr (by exact_mod_cast hq.le)
        _ ≤ 32767 := by norm_num
  · rw [if_neg (not_lt.mpr hpos)]
    have hq : 0 ≤ clamp x * 32767 := mul_nonneg hpos (by norm_num)
    rw [truncTowardZero, if_pos hq]
    constructor
    · calc (-32768 : ℤ) ≤ 0 := by norm_num
        _ ≤ ⌊clamp x * 32767⌋ := Int.floor_nonneg.mpr hq
    · calc ⌊clamp x * 32767⌋ ≤ ⌊(32767 : ℚ)⌋ := Int.floor_mono (by nlinarith)
        _ = 32767 := by norm_num

lemma wrap16_id {n : ℤ} (h1 : -32768 ≤ n) (h2 : n ≤ 32767) : wrap16 n = n := by
  unfold wrap16
  split <;> omega

/-- `setInt16` never wraps for a clamped sample: the stored 16-bit value is
exactly the truncated scaled sample. -/
lemma quantizeSample_eq_raw (x : ℚ) :
    quantizeSample x =
      truncTowardZero
        (if clamp x < 0 then clamp x * 32768 else clamp x * 32767) := by
  rw [quantizeSample]
  exact wrap16_id (rawQuant_bounds x).1 (rawQuant_bounds x).2

lemma quantizeSample_ge (x : ℚ) : -32768 ≤ quantizeSample x := by
  rw [quantizeSample_eq_raw]; exact (rawQuant_bounds x).1

lemma quantizeSample_le (x : ℚ) : quantizeSample x ≤ 32767 := by
  rw [quantizeSample_eq_raw]; exact (rawQuant_bounds x).2

lemma quantizeSample_mono {x y : ℚ} (h : x ≤ y) :
    quantizeSample x ≤ quantizeSample y := by
  rw [quantizeSample_eq_raw, quantizeSample_eq_raw]
  apply truncTowardZero_mono
  have hc := clamp_mono h
  rcases lt_or_ge (clamp x) 0 with hx | hx <;>
    rcases lt_or_ge (clamp y) 0 with hy | hy
  · rw [if_pos hx, if_pos hy]; nlinarith
  · rw [if_pos hx, if_neg (not_lt.mpr hy)]; nlinarith
  · exact absurd (lt_of_le_of_lt hc hy) (not_lt.mpr hx)
  · rw [if_neg (not_lt.mpr hx), if_neg (not_lt.mpr hy)]; nlinarith

/-- The source's `s < 0` branch and the spec's "negative or zero" branch
agree (a zero sample scales to zero either way). -/
lemma quantizeSample_eq_specQuantize (x : ℚ) :
    quantizeSample x = specQuantize x := by
  rw [quantizeSample_eq_raw, specQuantize]
  rcases lt_trichotomy (clamp x) 0 with h | h | h
  · rw [if_pos h, if_pos h.le]
  · rw [if_neg (not_lt.mpr h.ge), if_pos h.le, h, zero_mul, zero_mul]
  · rw [if_neg (not_lt.mpr h.le), if_neg (not_le.mpr h)]

/-- One-sample round-trip accuracy: decoding the stored 16-bit value by
1/2^15 scaling lands strictly within two quantization steps of the clamped
sample. -/
lemma quantizeSample_close (x : ℚ) :
    |(quantizeSample x : ℚ) / 32768 - clamp x| < 1 / 16384 := by
  rw [quantizeSample_eq_raw]
  have hl := clamp_ge x
  have hr := clamp_le x
  rcases lt_or_ge (clamp x) 0 with hneg | hpos
  · rw [if_pos hneg]
    have hq : clamp x * 32768 < 0 := mul_neg_of_neg_of_pos hneg (by norm_num)
    rw [truncTowardZero, if_neg (not_le.mpr hq)]
    have h1 : (clamp x * 32768 : ℚ) ≤ (⌈clamp x * 32768⌉ : ℚ) := Int.le_ceil _
    have h2 : ((⌈clamp x * 32768⌉ : ℤ) : ℚ) < clamp x * 32768 + 1 :=
      Int.ceil_lt_add_one _
    rw [abs_lt]
    constructor <;> nlinarith
  · rw [if_neg (not_lt.mpr hpos)]
    have hq : 0 ≤ clamp x * 32767 := mul_nonneg hpos (by norm_num)
    rw [truncTowardZero, if_pos hq]
    have h1 : ((⌊clamp x * 32767⌋ : ℤ) : ℚ) ≤ clamp x * 32767 := Int.floor_le _
    have h2 : (clamp x * 32767 : ℚ) < (⌊clamp x * 32767⌋ : ℚ) + 1 :=
      Int.lt_floor_add_one _
    rw [abs_lt]
    constructor <;> nlinarith

/-! ### Payload extraction and interleave indexing -/

/-- A `drop`/`take` window past the left part of an append only sees the
right part. -/
lemma take_drop_append_right (l₁ l₂ : List ℕ) (off k : ℕ)
    (h : l₁.length ≤ off) :
    ((l₁ ++ l₂).drop off).take k = (l₂.drop (off - l₁.length)).take k := by
  rw [List.drop_append_eq_append_drop, List.drop_eq_nil_iff.mpr h,
    List.nil_append]

/-- The two payload bytes of sample `j` are the little-endian encoding of
its quantized value. -/
lemma pcmBytes_window :
    ∀ (xs : List ℚ) (j : ℕ), j < xs.length →
      ((pcmBytes xs).drop (2 * j)).take 2 = s16le (quantizeSample (xs.getD j 0))
  | [], j, h => by simp at h
  | x :: xs, 0, _ => by
      simp only [pcmBytes, List.flatMap_cons, Nat.mul_zero, List.drop_zero]
      rfl
  | x :: xs, j + 1, h => by
      have hlen : (s16le (quantizeSample x)).length = 2 := rfl
      have hdrop :
          ((pcmBytes (x :: xs)).drop (2 * (j + 1))).take 2 =
            ((pcmBytes xs).drop (2 * j)).take 2 := by
        simp only [pcmBytes, List.flatMap_cons]
        rw [List.drop_append_eq_append_drop, hlen]
        have h1 : (s16le (quantizeSample x)).drop (2 * (j + 1)) = [] := by
          rw [List.drop_eq_nil_iff.mpr (by rw [hlen]; omega)]
        rw [h1, List.nil_append]
        have h2 : 2 * (j + 1) - 2 = 2 * j := by omega
        rw [h2]
      rw [hdrop, pcmBytes_window xs j (by simpa using h)]
      rfl

lemma readU16_s16le (bs : List ℕ) (off : ℕ) (q : ℤ)
    (h : (bs.drop off).take 2 = s16le q) :
    readU16 bs off = (q % 65536).toNat := by
  have h' := readU16_of_take bs off ((q % 65536).toNat % 256)
    ((q % 65536).toNat / 256) h
  omega

lemma readS16_s16le (bs : List ℕ) (off : ℕ) (q : ℤ)
    (hq1 : -32768 ≤ q) (hq2 : q ≤ 32767)
    (h : (bs.drop off).take 2 = s16le q) : readS16 bs off = q := by
  rw [readS16, readU16_s16le bs off q h, toSigned16]
  split <;> omega

/-- Sample `j` of the encoder output decodes to the quantized interleaved
sample scaled by 1/2^15. -/
lemma decodedSample_encode (a : DecodedAudio) (il : List ℚ) (out : List ℕ)
    (hil : interleavedOf a = some il) (hout : encodeWAV a = some out)
    (j : ℕ) (hj : j < il.length) :
    decodedSample out j = (quantizeSample (il.getD j 0) : ℚ) / 32768 := by
  rw [encodeWAV_of_interleaved a il hil] at hout
  have hout' := Option.some.inj hout
  have hwin : (out.drop (44 + 2 * j)).take 2 =
      s16le (quantizeSample (il.getD j 0)) := by
    rw [← hout', take_drop_append_right _ _ _ _ (by rw [wavHeader_length]; omega),
      wavHeader_length]
    have h44 : 44 + 2 * j - 44 = 2 * j := by omega
    rw [h44, pcmBytes_window il j hj]
  rw [decodedSample, readS16_s16le _ _ _ (quantizeSample_ge _)
    (quantizeSample_le _) hwin]

/-- Even positions of the interleaved sequence come from channel 0. -/
lemma interleave_getD_even :
    ∀ (xs ys : List ℚ) (i : ℕ), xs.length = ys.length → i < xs.length →
      (interleave xs ys).getD (2 * i) 0 = xs.getD i 0
  | [], _, i, _, hi => by simp at hi
  | _ :: _, [], _, h, _ => by simp at h
  | x :: xs, y :: ys, 0, _, _ => rfl
  | x :: xs, y :: ys, i + 1, h, hi => by
      have h' : xs.length = ys.length := by simpa using h
      have hi' : i < xs.length := by simpa using Nat.lt_of_succ_lt_succ hi
      have harith : 2 * (i + 1) = 2 * i + 1 + 1 := by omega
      rw [interleave, harith, List.getD_cons_succ, List.getD_cons_succ,
        interleave_getD_even xs ys i h' hi', List.getD_cons_succ]

/-- Odd positions of the interleaved sequence come from channel 1. -/
lemma interleave_getD_odd :
    ∀ (xs ys : List ℚ) (i : ℕ), xs.length = ys.length → i < xs.length →
      (interleave xs ys).getD (2 * i + 1) 0 = ys.getD i 0
  | [], _, i, _, hi => by simp at hi
  | _ :: _, [], _, h, _ => by simp at h
  | x :: xs, y :: ys, 0, _, _ => rfl
  | x :: xs, y :: ys, i + 1, h, hi => by
      have h' : xs.length = ys.length := by simpa using h
      have hi' : i < xs.length := by simpa using Nat.lt_of_succ_lt_succ hi
      have harith : 2 * (i + 1) + 1 = 2 * i + 1 + 1 + 1 := by omega
      rw [interleave, harith, List.getD_cons_succ, List.getD_cons_succ,
        interleave_getD_odd xs ys i h' hi', List.getD_cons_succ]

/-! ### Field values of the full output -/

lemma encode_field_channels (a : DecodedAudio) (il : List ℚ) (out : List ℕ)
    (hil : interleavedOf a = some il) (henc : encodeWAV a = some out) :
    readU16 out 22 = min 2 a.channelCount := by
  rw [encodeWAV_of_interleaved a il hil] at henc
  have hout := Option.some.inj henc
  subst hout
  rw [readU16_u16le _ 22 (min 2 a.channelCount)
    ((take_drop_append _ _ 22 2 (by rw [wavHeader_length]; omega)).trans
      (wavHeader_win22 _ _ _))]
  have := min_le_left 2 a.channelCount
  omega

lemma encode_field_sampleRate (a : DecodedAudio) (il : List ℚ) (out : List ℕ)
    (hil : interleavedOf a = some il) (henc : encodeWAV a = some out) :
    readU32 out 24 = a.sampleRate % 4294967296 := by
  rw [encodeWAV_of_interleaved a il hil] at henc
  have hout := Option.some.inj henc
  subst hout
  exact readU32_u32le _ 24 a.sampleRate
    ((take_drop_append _ _ 24 4 (by rw [wavHeader_length]; omega)).trans
      (wavHeader_win24 _ _ _))

lemma encode_field_dataLen (a : DecodedAudio) (il : List ℚ) (out : List ℕ)
    (hil : interleavedOf a = some il) (henc : encodeWAV a = some out) :
    readU32 out 40 = il.length * 2 % 4294967296 := by
  rw [encodeWAV_of_interleaved a il hil] at henc
  have hout := Option.some.inj henc
  subst hout
  exact readU32_u32le _ 40 (il.length * 2)
    ((take_drop_append _ _ 40 4 (by rw [wavHeader_length])).trans
      (wavHeader_win40 _ _ _))

/-- Both zero-frame facts in one helper: a valid zero-frame input encodes
to exactly the 44 header bytes with a zero data-length field. -/
lemma encode_zero_frames_aux (a : DecodedAudio) (out : List ℕ)
    (hv : a.Valid) (hfc : a.frameCount = 0) (henc : encodeWAV a = some out) :
    out.length = 44 ∧ readU32 out 40 = 0 := by
  obtain ⟨il, hil, hillen⟩ := interleavedOf_valid a hv
  have hlen0 : il.length = 0 := by rw [hillen, hfc]; ring
  constructor
  · rw [encodeWAV_length a il hil out henc, hlen0]
  · rw [encode_field_dataLen a il out hil henc, hlen0]

/-! ### Claim theorems -/

/-- C1: For every DecodedAudio input, encode emits a header of exactly 44
bytes whose multi-byte numeric fields are all little-endian, with bytes
0-3 = ASCII `RIFF`, a 32-bit field at offset 4 = 36 + payloadByteLength
(= total output length - 8), bytes 8-11 = ASCII `WAVE`, bytes 12-15 =
ASCII `fmt `, a 32-bit field = 16, a 16-bit field = 1 (format tag), a
16-bit field = outputChannelCount, a 32-bit field = sampleRate, a 32-bit
field = sampleRate * outputChannelCount * 2, a 16-bit field =
outputChannelCount * 2, a 16-bit field = 16, bytes 36-39 = ASCII `data`,
and a 32-bit field at offset 40 = payloadByteLength (= total output
length - 44).  (Little-endianness is embodied in the `readU16`/`readU32`
readers; the two size hypotheses keep the 32-bit fields below their wrap
point, as every real sample rate and recording length does.) -/
theorem encodeWAV_header_spec (a : DecodedAudio) (out : List ℕ)
    (hsr : a.sampleRate < 536870912)
    (henc : encodeWAV a = some out)
    (hlen : out.length < 4294967296) :
    44 ≤ out.length ∧
    out.take 4 = riffBytes ∧
    readU32 out 4 = 36 + (out.length - 44) ∧
    36 + (out.length - 44) = out.length - 8 ∧
    (out.drop 8).take 4 = waveBytes ∧
    (out.drop 12).take 4 = fmtBytes ∧
    readU32 out 16 = 16 ∧
    readU16 out 20 = 1 ∧
    readU16 out 22 = min 2 a.channelCount ∧
    readU32 out 24 = a.sampleRate ∧
    readU32 out 28 = a.sampleRate * min 2 a.channelCount * 2 ∧
    readU16 out 32 = min 2 a.channelCount * 2 ∧
    readU16 out 34 = 16 ∧
    (out.drop 36).take 4 = dataBytes ∧
    readU32 out 40 = out.length - 44 := by
  obtain ⟨il, hil, hout⟩ := encodeWAV_elim a out henc
  have hlen44 : out.length = 44 + 2 * il.length :=
    encodeWAV_length a il hil out henc
  have hch : min 2 a.channelCount ≤ 2 := min_le_left _ _
  subst hout
  rw [List.length_append, wavHeader_length, pcmBytes_length] at hlen hlen44 ⊢
  have hin : ∀ off k : ℕ, off + k ≤ 44 →
      ((wavHeader a.sampleRate (min 2 a.channelCount) il.length ++
        pcmBytes il).drop off).take k =
      ((wavHeader a.sampleRate (min 2 a.channelCount) il.length).drop off).take k :=
    fun off k h => take_drop_append _ _ off k (by rw [wavHeader_length]; omega)
  refine ⟨by omega, ?_, ?_, by omega, ?_, ?_, ?_, ?_, ?_, ?_, ?_, ?_, ?_, ?_, ?_⟩
  · have h := hin 0 4 (by omega)
    simpa using h.trans (wavHeader_take4 _ _ _)
  · rw [readU32_u32le _ 4 (36 + il.length * 2)
      ((hin 4 4 (by omega)).trans (wavHeader_win4 _ _ _))]
    omega
  · exact (hin 8 4 (by omega)).trans (wavHeader_wave _ _ _)
  · exact (hin 12 4 (by omega)).trans (wavHeader_fmt _ _ _)
  · rw [readU32_u32le _ 16 16 ((hin 16 4 (by omega)).trans (wavHeader_win16 _ _ _))]
  · rw [readU16_u16le _ 20 1 ((hin 20 2 (by omega)).trans (wavHeader_win20 _ _ _))]
  · rw [readU16_u16le _ 22 (min 2 a.channelCount)
      ((hin 22 2 (by omega)).trans (wavHeader_win22 _ _ _))]
    omega
  · rw [readU32_u32le _ 24 a.sampleRate
      ((hin 24 4 (by omega)).trans (wavHeader_win24 _ _ _))]
    omega
  · rw [readU32_u32le _ 28 (a.sampleRate * min 2 a.channelCount * 2)
      ((hin 28 4 (by omega)).trans (wavHeader_win28 _ _ _))]
    have : a.sampleRate * min 2 a.channelCount * 2 ≤ a.sampleRate * 2 * 2 :=
      Nat.mul_le_mul_right 2 (Nat.mul_le_mul_left _ hch)
    omega
  · rw [readU16_u16le _ 32 (min 2 a.channelCount * 2)
      ((hin 32 2 (by omega)).trans (wavHeader_win32 _ _ _))]
    omega
  · rw [readU16_u16le _ 34 16 ((hin 34 2 (by omega)).trans (wavHeader_win34 _ _ _))]
  · exact (hin 36 4 (by omega)).trans (wavHeader_data _ _ _)
  · rw [readU32_u32le _ 40 (il.length * 2)
      ((hin 40 4 (by omega)).trans (wavHeader_win40 _ _ _))]
    omega

/-- C1 witness: the header-field theorem applied to a concrete mono
one-frame input. -/
theorem encodeWAV_header_spec_witness :
    (8000 : ℕ) < 536870912 ∧
    encodeWAV ⟨8000, 1, [[(0 : ℚ)]]⟩ =
      some (wavHeader 8000 1 1 ++ pcmBytes [0]) ∧
    (wavHeader 8000 1 1 ++ pcmBytes [0]).length < 4294967296 ∧
    readU16 (wavHeader 8000 1 1 ++ pcmBytes [0]) 22 =
      min 2 (⟨8000, 1, [[(0 : ℚ)]]⟩ : DecodedAudio).channelCount :=
  ⟨by norm_num, rfl,
    by rw [List.length_append, wavHeader_length, pcmBytes_length]; norm_num,
    (encodeWAV_header_spec ⟨8000, 1, [[(0 : ℚ)]]⟩
      (wavHeader 8000 1 1 ++ pcmBytes [0]) (by norm_num) rfl
      (by rw [List.length_append, wavHeader_length, pcmBytes_length];
          norm_num)).2.2.2.2.2.2.2.2.1⟩

/-- C2: For every valid DecodedAudio input (all channel buffers of equal
length frameCount, channelCount >= 1), the total byte length of the output
of encode equals 44 + frameCount * min(2, channelCount) * 2. -/
theorem encodeWAV_output_length (a : DecodedAudio) (out : List ℕ)
    (hv : a.Valid) (henc : encodeWAV a = some out) :
    out.length = 44 + a.frameCount * min 2 a.channelCount * 2 := by
  obtain ⟨il, hil, hillen⟩ := interleavedOf_valid a hv
  rw [encodeWAV_length a il hil out henc, hillen]
  ring

/-- C2 witness: the length theorem applied to a concrete 3-channel,
2-frame input. -/
theorem encodeWAV_output_length_witness :
    (⟨8000, 2, [[0, 1], [1, 0], [1/2, 1/2]]⟩ : DecodedAudio).Valid ∧
    ∃ out, encodeWAV ⟨8000, 2, [[0, 1], [1, 0], [1/2, 1/2]]⟩ = some out ∧
      out.length = 44 + 2 * min 2 3 * 2 := by
  refine ⟨⟨by norm_num, ?_⟩, wavHeader 8000 2 4 ++
    pcmBytes (interleave [0, 1] [1, 0]), rfl, ?_⟩
  · intro ch hch
    simp only [List.mem_cons, List.not_mem_nil, or_false] at hch
    rcases hch with h | h | h <;> subst h <;> rfl
  · exact encodeWAV_output_length ⟨8000, 2, [[0, 1], [1, 0], [1/2, 1/2]]⟩ _
      ⟨by norm_num, by
        intro ch hch
        simp only [List.mem_cons, List.not_mem_nil, or_false] at hch
        rcases hch with h | h | h <;> subst h <;> rfl⟩ rfl

/-- C3: For every input sample s, encode first clamps s to [-1.0, 1.0] and
then quantizes it to a signed 16-bit integer by scaling negative-or-zero
values by 32768 and positive values by 32767 (truncating toward zero); in
particular an input sample of +1.5 encodes to 32767 and an input sample of
-1.5 encodes to -32768, and the quantized value never exceeds the signed
16-bit range [-32768, 32767].  (`specQuantize` is the spec-worded map; the
source tests `s < 0` rather than `s <= 0`, but a zero sample scales to zero
under either factor, so the two maps agree everywhere.) -/
theorem quantize_clamp_spec :
    (∀ x : ℚ, quantizeSample x = specQuantize x) ∧
    (∀ x : ℚ, -32768 ≤ quantizeSample x ∧ quantizeSample x ≤ 32767) ∧
    quantizeSample (3/2) = 32767 ∧
    quantizeSample (-3/2) = -32768 :=
  ⟨quantizeSample_eq_specQuantize,
   fun x => ⟨quantizeSample_ge x, quantizeSample_le x⟩,
   by norm_num [quantizeSample, clamp, truncTowardZero, wrap16, Int.ceil_neg],
   by norm_num [quantizeSample, clamp, truncTowardZero, wrap16, Int.ceil_neg]⟩

/-- C4: When the output channel count is 2, the interleaved
pre-quantization sequence alternates channel 0 and channel 1 by frame and
has length frameCount * 2; for the specific 2-frame, 2-channel input with
channel 0 = [0.0, 0.5] and channel 1 = [-0.5, 1.0], that sequence is
exactly [0.0, -0.5, 0.5, 1.0]. -/
theorem interleave_order_spec (ch0 ch1 : List ℚ)
    (h : ch0.length = ch1.length) :
    ((interleave ch0 ch1).length = ch0.length * 2 ∧
     (∀ i < ch0.length,
        (interleave ch0 ch1).getD (2 * i) 0 = ch0.getD i 0 ∧
        (interleave ch0 ch1).getD (2 * i + 1) 0 = ch1.getD i 0) ∧
     (∀ a : DecodedAudio, 2 ≤ a.channelCount →
        a.channels.get? 0 = some ch0 → a.channels.get? 1 = some ch1 →
        interleavedOf a = some (interleave ch0 ch1))) ∧
    interleave [0, 1/2] [-1/2, 1] = [0, -1/2, 1/2, 1] := by
  refine ⟨⟨?_, fun i hi => ⟨interleave_getD_even ch0 ch1 i h hi,
    interleave_getD_odd ch0 ch1 i h hi⟩,
    fun a h2 h0 h1 => interleavedOf_two a ch0 ch1 h2 h0 h1⟩, rfl⟩
  rw [interleave_length ch0 ch1 h]
  ring

/-- C4 witness: the interleave theorem applied to the concrete 2-frame
stereo input of the claim. -/
theorem interleave_order_spec_witness :
    ([(0 : ℚ), 1/2].length = [(-1/2 : ℚ), 1].length) ∧
    interleave [0, 1/2] [-1/2, 1] = [0, -1/2, 1/2, 1] :=
  ⟨rfl, (interleave_order_spec [0, 1/2] [-1/2, 1] rfl).2⟩

/-- C10 (implicit): the per-sample quantization performed by encode (clamp
to [-1, 1], then scale negative values by 32768 and non-negative values by
32767, truncating toward zero) is monotone non-decreasing. -/
theorem quantize_monotone (s1 s2 : ℚ) (h : s1 ≤ s2) :
    quantizeSample s1 ≤ quantizeSample s2 :=
  quantizeSample_mono h

/-- C10 witness: monotonicity applied at a concrete pair of samples. -/
theorem quantize_monotone_witness :
    (-(2 : ℚ)) ≤ 1/2 ∧ quantizeSample (-2) ≤ quantizeSample (1/2) :=
  ⟨by norm_num, quantize_monotone (-2) (1/2) (by norm_num)⟩

/-- C6: For every input with channelCount = 1, the output's channel-count
header field equals 1, the payload length equals frameCount * 2 bytes, and
the flat pre-quantization sequence is channel 0 verbatim (in this pure
value model `slice(0)` and its source are the same list; the
no-aliasing/ownership aspect has no observable content here). -/
theorem encodeWAV_mono_spec (a : DecodedAudio) (out : List ℕ) (ch0 : List ℚ)
    (h1 : a.channelCount = 1)
    (hch : ∀ ch ∈ a.channels, ch.length = a.frameCount)
    (h0 : a.channels.get? 0 = some ch0)
    (henc : encodeWAV a = some out) :
    readU16 out 22 = 1 ∧
    out.length - 44 = a.frameCount * 2 ∧
    interleavedOf a = some ch0 := by
  have hil : interleavedOf a = some ch0 := by
    rw [interleavedOf_one a (by rw [DecodedAudio.channelCount] at h1; omega),
      h0]
  have hlen : ch0.length = a.frameCount :=
    hch ch0 (List.get?_mem h0)
  refine ⟨?_, ?_, hil⟩
  · rw [encode_field_channels a ch0 out hil henc, h1]
    rfl
  · rw [encodeWAV_length a ch0 hil out henc, hlen]
    omega

/-- C6 witness: the mono theorem applied to a concrete one-channel,
two-frame input. -/
theorem encodeWAV_mono_spec_witness :
    (⟨8000, 2, [[(1 : ℚ)/4, -1/4]]⟩ : DecodedAudio).channelCount = 1 ∧
    readU16 (wavHeader 8000 1 2 ++ pcmBytes [1/4, -1/4]) 22 = 1 :=
  ⟨rfl, (encodeWAV_mono_spec ⟨8000, 2, [[(1 : ℚ)/4, -1/4]]⟩
    (wavHeader 8000 1 2 ++ pcmBytes [1/4, -1/4]) [1/4, -1/4] rfl
    (by intro ch hch
        simp only [List.mem_cons, List.not_mem_nil, or_false] at hch
        subst hch
        rfl)
    rfl rfl).1⟩

/-- C7: For every input with frameCount = 0 (and channelCount >= 1), the
output of encode is exactly 44 bytes long and its data chunk size field at
offset 40 equals 0. -/
theorem encodeWAV_zero_frames (a : DecodedAudio) (out : List ℕ)
    (hv : a.Valid) (hfc : a.frameCount = 0) (henc : encodeWAV a = some out) :
    out.length = 44 ∧ readU32 out 40 = 0 :=
  encode_zero_frames_aux a out hv hfc henc

/-- C7 witness: the zero-frame theorem applied to a concrete empty mono
input. -/
theorem encodeWAV_zero_frames_witness :
    (⟨44100, 0, [([] : List ℚ)]⟩ : DecodedAudio).Valid ∧
    (⟨44100, 0, [([] : List ℚ)]⟩ : DecodedAudio).frameCount = 0 ∧
    (wavHeader 44100 1 0 ++ pcmBytes []).length = 44 ∧
    readU32 (wavHeader 44100 1 0 ++ pcmBytes []) 40 = 0 := by
  have hv : (⟨44100, 0, [([] : List ℚ)]⟩ : DecodedAudio).Valid := by
    constructor
    · norm_num
    · intro ch hch
      simp only [List.mem_cons, List.not_mem_nil, or_false] at hch
      subst hch
      rfl
  have h := encodeWAV_zero_frames ⟨44100, 0, [([] : List ℚ)]⟩
    (wavHeader 44100 1 0 ++ pcmBytes []) hv rfl rfl
  exact ⟨hv, rfl, h.1, h.2⟩

/-- C8 counterexample: on the zero-channel input the source calls
`audioBuffer.getChannelData(0)`, which throws; the embedding returns
`none`, not a 44-byte container, so encode is not total over zero-channel
inputs as the claim states. -/
theorem encodeWAV_zero_channels : encodeWAV ⟨8000, 0, []⟩ = none := rfl

/-- C8 amended: encode is total on every well-formed input with at least
one channel (all channels of equal length); in particular a zero-frame
input yields a zero-payload, still-valid 44-byte container with a correct
(zero) data-length field instead of raising an error.  (The zero-channel
case of the original claim fails: see `encodeWAV_zero_channels`.) -/
theorem encodeWAV_total_on_valid (a : DecodedAudio) (hv : a.Valid) :
    ∃ out, encodeWAV a = some out ∧
      (a.frameCount = 0 → out.length = 44 ∧ readU32 out 40 = 0) := by
  obtain ⟨il, hil, hillen⟩ := interleavedOf_valid a hv
  refine ⟨wavHeader a.sampleRate (min 2 a.channelCount) il.length ++
    pcmBytes il, encodeWAV_of_interleaved a il hil, fun hfc => ?_⟩
  exact encode_zero_frames_aux a _ hv hfc (encodeWAV_of_interleaved a il hil)

/-- C8 witness: totality applied to a concrete valid zero-frame input. -/
theorem encodeWAV_total_on_valid_witness :
    (⟨22050, 0, [([] : List ℚ), []]⟩ : DecodedAudio).Valid ∧
    ∃ out, encodeWAV ⟨22050, 0, [([] : List ℚ), []]⟩ = some out ∧
      ((⟨22050, 0, [([] : List ℚ), []]⟩ : DecodedAudio).frameCount = 0 →
        out.length = 44 ∧ readU32 out 40 = 0) := by
  have hv : (⟨22050, 0, [([] : List ℚ), []]⟩ : DecodedAudio).Valid := by
    constructor
    · norm_num
    · intro ch hch
      simp only [List.mem_cons, List.not_mem_nil, or_false] at hch
      rcases hch with h | h <;> subst h <;> rfl
  exact ⟨hv, encodeWAV_total_on_valid ⟨22050, 0, [([] : List ℚ), []]⟩ hv⟩

/-- C9: Channels beyond index 1 are dropped, never mixed: two inputs with
the same sample rate and frame count that agree on channels 0 and 1 (both
having at least 2 channels) encode to byte-for-byte identical output,
whatever the contents or number of their further channels. -/
theorem encodeWAV_extra_channels_dropped (a b : DecodedAudio)
    (hsr : a.sampleRate = b.sampleRate) (hfc : a.frameCount = b.frameCount)
    (ha : 2 ≤ a.channelCount) (hb : 2 ≤ b.channelCount)
    (h0 : a.channels.get? 0 = b.channels.get? 0)
    (h1 : a.channels.get? 1 = b.channels.get? 1) :
    encodeWAV a = encodeWAV b := by
  obtain ⟨ch0, hch0⟩ : ∃ c, a.channels.get? 0 = some c := by
    cases hg : a.channels.get? 0 with
    | none =>
        rw [List.get?_eq_none] at hg
        rw [DecodedAudio.channelCount] at ha
        omega
    | some c => exact ⟨c, rfl⟩
  obtain ⟨ch1, hch1⟩ : ∃ c, a.channels.get? 1 = some c := by
    cases hg : a.channels.get? 1 with
    | none =>
        rw [List.get?_eq_none] at hg
        rw [DecodedAudio.channelCount] at ha
        omega
    | some c => exact ⟨c, rfl⟩
  have hila : interleavedOf a = some (interleave ch0 ch1) :=
    interleavedOf_two a ch0 ch1 ha hch0 hch1
  have hilb : interleavedOf b = some (interleave ch0 ch1) :=
    interleavedOf_two b ch0 ch1 hb (h0 ▸ hch0) (h1 ▸ hch1)
  rw [encodeWAV_of_interleaved a _ hila, encodeWAV_of_interleaved b _ hilb,
    hsr]
  have hmin : min 2 a.channelCount = min 2 b.channelCount := by
    have h2a : min 2 a.channelCount = 2 := min_eq_left ha
    have h2b : min 2 b.channelCount = 2 := min_eq_left hb
    rw [h2a, h2b]
  rw [hmin]

/-- C9 witness: a three-channel input and its two-channel truncation encode
identically. -/
theorem encodeWAV_extra_channels_dropped_witness :
    (2 ≤ (⟨8000, 1, [[(1 : ℚ)/2], [0], [1]]⟩ : DecodedAudio).channelCount) ∧
    (2 ≤ (⟨8000, 1, [[(1 : ℚ)/2], [0]]⟩ : DecodedAudio).channelCount) ∧
    encodeWAV ⟨8000, 1, [[(1 : ℚ)/2], [0], [1]]⟩ =
      encodeWAV ⟨8000, 1, [[(1 : ℚ)/2], [0]]⟩ :=
  ⟨by norm_num [DecodedAudio.channelCount], by norm_num [DecodedAudio.channelCount],
    encodeWAV_extra_channels_dropped ⟨8000, 1, [[(1 : ℚ)/2], [0], [1]]⟩
      ⟨8000, 1, [[(1 : ℚ)/2], [0]]⟩ rfl rfl
      (by norm_num [DecodedAudio.channelCount])
      (by norm_num [DecodedAudio.channelCount]) rfl rfl⟩

/-- C5 counterexample: for the mono input with the single sample
65533/65536 (a representable float32 value close to 1), the encoder stores
⌊32767 * 65533/65536⌋ = 32765, which decodes to 32765/32768; the distance
to the clamped source sample is 3/65536 > 1/32768, so the claimed one-step
round-trip bound fails.  The asymmetry is structural: positive samples are
scaled by 32767 on encode but by 32768 on decode. -/
theorem roundTrip_one_step_violated :
    encodeWAV ⟨8000, 1, [[65533/65536]]⟩ =
      some (wavHeader 8000 1 1 ++ pcmBytes [65533/65536]) ∧
    ¬ |decodedSample (wavHeader 8000 1 1 ++ pcmBytes [65533/65536]) 0 -
        clamp (65533/65536)| ≤ 1/32768 := by
  refine ⟨rfl, ?_⟩
  have hq : quantizeSample (65533/65536) = 32765 := by
    norm_num [quantizeSample, clamp, truncTowardZero, wrap16]
  have hd : decodedSample (wavHeader 8000 1 1 ++ pcmBytes [65533/65536]) 0 =
      (32765 : ℚ) / 32768 := by
    have h := decodedSample_encode ⟨8000, 1, [[65533/65536]]⟩ [65533/65536]
      (wavHeader 8000 1 1 ++ pcmBytes [65533/65536]) rfl rfl 0 (by norm_num)
    rw [h, List.getD_cons_zero, hq]
    norm_num
  rw [hd, clamp_of_mem (by norm_num) (by norm_num), abs_sub_comm,
    abs_of_pos (by norm_num : (0 : ℚ) < 65533/65536 - 32765/32768)]
  norm_num

/-- C5 amended: decoding the encoder's output with the reference WAVE
parser recovers channel count = min(2, channelCount), sample rate, and
frame count exactly, and every decoded sample lies strictly within
2/32768 (two quantization steps) of the corresponding clamped source
sample.  (The original one-step bound 1/32768 fails for positive samples,
which are scaled by 32767 on encode but 32768 on decode: see
`roundTrip_one_step_violated`; the bound here is the tight one.) -/
theorem roundTrip_close_spec (a : DecodedAudio) (out : List ℕ)
    (hv : a.Valid) (hsr : a.sampleRate < 536870912)
    (hfc : a.frameCount < 536870912)
    (henc : encodeWAV a = some out) :
    decodedChannelCount out = min 2 a.channelCount ∧
    decodedSampleRate out = a.sampleRate ∧
    decodedFrameCount out = a.frameCount ∧
    (∀ c < min 2 a.channelCount, ∀ chl, a.channels.get? c = some chl →
      ∀ i < a.frameCount,
        |decodedSample out (i * min 2 a.channelCount + c) -
          clamp (chl.getD i 0)| < 1/16384) := by
  obtain ⟨il, hil, hillen⟩ := interleavedOf_valid a hv
  have hch1 : 1 ≤ min 2 a.channelCount := le_min (by norm_num) hv.1
  have hch2 : min 2 a.channelCount ≤ 2 := min_le_left _ _
  refine ⟨encode_field_channels a il out hil henc, ?_, ?_, ?_⟩
  · rw [decodedSampleRate, encode_field_sampleRate a il out hil henc]
    omega
  · rw [decodedFrameCount, decodedDataLen,
      encode_field_dataLen a il out hil henc, hillen]
    have hcc : decodedChannelCount out = min 2 a.channelCount :=
      encode_field_channels a il out hil henc
    rw [hcc]
    rcases (by omega : min 2 a.channelCount = 1 ∨ min 2 a.channelCount = 2)
      with hm | hm <;> rw [hm] <;> omega
  · intro c hc chl hchl i hi
    have hj : i * min 2 a.channelCount + c < il.length := by
      rw [hillen]
      calc i * min 2 a.channelCount + c
          < (i + 1) * min 2 a.channelCount := by rw [Nat.succ_mul]; omega
        _ ≤ a.frameCount * min 2 a.channelCount :=
            Nat.mul_le_mul_right _ (by omega)
    rw [decodedSample_encode a il out hil henc _ hj]
    have heq : il.getD (i * min 2 a.channelCount + c) 0 = chl.getD i 0 := by
      rcases (by omega : min 2 a.channelCount = 1 ∨ min 2 a.channelCount = 2)
        with hm | hm
      · have hc0 : c = 0 := by omega
        have hcc1 : a.channelCount = 1 := by
          have := hv.1
          rw [DecodedAudio.channelCount] at *
          omega
        have hil1 : interleavedOf a = a.channels.get? 0 :=
          interleavedOf_one a (by
            rw [DecodedAudio.channelCount] at hcc1; omega)
        have h' : a.channels.get? 0 = some il := by rw [← hil1, hil]
        rw [hc0] at hchl
        rw [hchl] at h'
        have hileq : chl = il := Option.some.inj h'
        rw [← hileq]
        have hidx : i * min 2 a.channelCount + c = i := by
          rw [hm, hc0]; omega
        rw [hidx]
      · have hcc2 : 2 ≤ a.channelCount := by omega
        obtain ⟨ch0, hch0⟩ : ∃ c0, a.channels.get? 0 = some c0 := by
          cases hg : a.channels.get? 0 with
          | none =>
              rw [List.get?_eq_none] at hg
              rw [DecodedAudio.channelCount] at hcc2
              omega
          | some c0 => exact ⟨c0, rfl⟩
        obtain ⟨ch1, hch1'⟩ : ∃ c1, a.channels.get? 1 = some c1 := by
          cases hg : a.channels.get? 1 with
          | none =>
              rw [List.get?_eq_none] at hg
              rw [DecodedAudio.channelCount] at hcc2
              omega
          | some c1 => exact ⟨c1, rfl⟩
        have hil2 : interleavedOf a = some (interleave ch0 ch1) :=
          interleavedOf_two a ch0 ch1 hcc2 hch0 hch1'
        have hileq : il = interleave ch0 ch1 := by
          rw [hil] at hil2
          exact Option.some.inj hil2
        have hc0len : ch0.length = a.frameCount :=
          hv.2 ch0 (List.get?_mem hch0)
        have hc1len : ch1.length = a.frameCount :=
          hv.2 ch1 (List.get?_mem hch1')
        have hlens : ch0.length = ch1.length := by rw [hc0len, hc1len]
        have hi0 : i < ch0.length := by rw [hc0len]; exact hi
        rcases (by omega : c = 0 ∨ c = 1) with hc' | hc'
        · have hidx : i * min 2 a.channelCount + c = 2 * i := by
            rw [hm, hc']; omega
          rw [hidx, hileq, interleave_getD_even ch0 ch1 i hlens hi0]
          rw [hc'] at hchl
          rw [hchl] at hch0
          rw [Option.some.inj hch0]
        · have hidx : i * min 2 a.channelCount + c = 2 * i + 1 := by
            rw [hm, hc']; omega
          rw [hidx, hileq, interleave_getD_odd ch0 ch1 i hlens hi0]
          rw [hc'] at hchl
          rw [hchl] at hch1'
          rw [Option.some.inj hch1']
    rw [heq]
    exact quantizeSample_close _

/-- C5 witness: the amended round-trip theorem applied to a concrete mono
one-frame input. -/
theorem roundTrip_close_spec_witness :
    (⟨8000, 1, [[(1 : ℚ)/2]]⟩ : DecodedAudio).Valid ∧
    (8000 : ℕ) < 536870912 ∧ (1 : ℕ) < 536870912 ∧
    decodedSampleRate (wavHeader 8000 1 1 ++ pcmBytes [1/2]) = 8000 := by
  have hv : (⟨8000, 1, [[(1 : ℚ)/2]]⟩ : DecodedAudio).Valid := by
    constructor
    · norm_num
    · intro ch hch
      simp only [List.mem_cons, List.not_mem_nil, or_false] at hch
      subst hch
      rfl
  exact ⟨hv, by norm_num, by norm_num,
    (roundTrip_close_spec ⟨8000, 1, [[(1 : ℚ)/2]]⟩
      (wavHeader 8000 1 1 ++ pcmBytes [1/2]) hv (by norm_num) (by norm_num)
      rfl).2.1⟩

end ZenZone
